import Mathlib

/-
Verification of the Linkify add-on (src/Linkify.js).

The source is JavaScript against host services (document, drive search,
HTTP fetch).  We shallowly embed it: the document element tree is an
inductive type, host services (file search results, fetched page bodies)
are explicit parameters, JS string primitives (substring, charAt, trim,
replace, encodeURI) are modelled as Lean functions on `String`/`List Char`.
Document trees are finite and acyclic by construction of the inductive type,
matching the host contract stated in the spec.
-/

set_option maxHeartbeats 1000000
set_option maxRecDepth 10000

namespace Linkify

/-! ## JavaScript string primitives -/

/-- JS `String.prototype.substring(a, b)`: both indices are clamped to
`[0, length]` and swapped when `a > b`; the slice excludes index `hi`. -/
def jsSubstring (s : String) (a b : Nat) : String :=
  let len := s.data.length
  let a1 := min a len
  let b1 := min b len
  let lo := min a1 b1
  let hi := max a1 b1
  ⟨(s.data.drop lo).take (hi - lo)⟩

/-- JS `String.prototype.charAt(i)`: the one-character string at index `i`,
or the empty string when `i` is out of range. -/
def jsCharAt (s : String) (i : Nat) : String :=
  match s.data[i]? with
  | some c => ⟨[c]⟩
  | none => ""

/-- Whitespace characters removed by JS `String.prototype.trim`. -/
def jsWhitespaceChar (c : Char) : Bool :=
  c == ' ' || c == '\t' || c == '\n' || c == '\r' ||
  c == Char.ofNat 11 || c == Char.ofNat 12 || c == Char.ofNat 160

/-- JS `String.prototype.trim`: strip whitespace from both ends. -/
def jsTrim (s : String) : String :=
  ⟨((s.data.dropWhile jsWhitespaceChar).reverse.dropWhile jsWhitespaceChar).reverse⟩

/-- Upper-case hexadecimal digit for `n < 16`. -/
def hexDigitChar (n : Nat) : Char :=
  if n < 10 then Char.ofNat (48 + n) else Char.ofNat (55 + n)

/-- UTF-8 bytes of a code point. -/
def utf8Bytes (n : Nat) : List Nat :=
  if n < 0x80 then [n]
  else if n < 0x800 then [0xC0 + n / 0x40, 0x80 + n % 0x40]
  else if n < 0x10000 then
    [0xE0 + n / 0x1000, 0x80 + (n / 0x40) % 0x40, 0x80 + n % 0x40]
  else
    [0xF0 + n / 0x40000, 0x80 + (n / 0x1000) % 0x40, 0x80 + (n / 0x40) % 0x40,
      0x80 + n % 0x40]

/-- Characters the JS `encodeURI` builtin leaves unescaped
(alphanumerics, URI marks and URI reserved characters). -/
def uriUnescaped (c : Char) : Bool :=
  (('A' ≤ c && c ≤ 'Z') || ('a' ≤ c && c ≤ 'z') || ('0' ≤ c && c ≤ '9')) ||
  (c ∈ [';', ',', '/', '?', ':', '@', '&', '=', '+', '$', '-', '_', '.', '!',
    '~', '*', Char.ofNat 39, '(', ')', '#'] : Bool)

/-- JS `encodeURI`: percent-encode every character outside the unescaped
set as its UTF-8 bytes. -/
def encodeURI (s : String) : String :=
  ⟨s.data.flatMap (fun c =>
    if uriUnescaped c then [c]
    else (utf8Bytes c.toNat).flatMap
      (fun b => ['%', hexDigitChar (b / 16), hexDigitChar (b % 16)]))⟩

/-- JS `String.prototype.replace` with a global literal pattern: replace
every occurrence of `pat` by `rep`, scanning left to right without overlap.
(A JS regex is never empty, so `pat = []` is guarded out.) -/
def jsReplaceAll (pat rep : List Char) (s : List Char) : List Char :=
  match s with
  | [] => []
  | c :: cs =>
    if pat ≠ [] ∧ pat.isPrefixOf (c :: cs) then
      rep ++ jsReplaceAll pat rep ((c :: cs).drop pat.length)
    else
      c :: jsReplaceAll pat rep cs
termination_by s.length
decreasing_by
  · have hp : 0 < pat.length := List.length_pos.mpr (by tauto)
    simp only [List.length_drop, List.length_cons]
    omega
  · simp

/-- Number of positions at which `pat` occurs in a character list. -/
def countOcc (pat : List Char) : List Char → Nat
  | [] => 0
  | c :: cs => (if pat.isPrefixOf (c :: cs) then 1 else 0) + countOcc pat cs

/-- The literal pattern of the regex `/href="/g` in `createWikiUrl`. -/
def hrefPat : List Char := ['h', 'r', 'e', 'f', '=', '"']

/-- The replacement string `nohref="` in `createWikiUrl`. -/
def hrefRep : List Char := ['n', 'o', 'h', 'r', 'e', 'f', '=', '"']

/-! ## The document element tree

A document element is either a text run (characters, each carrying an
optional link), an inline image (no text, no children, an optional link),
or a container node with an ordered list of children.  The mutual inductive
makes every tree finite and acyclic, the host contract assumed by the spec.
-/

mutual
inductive Element : Type where
  | text : List (Char × Option String) → Element
  | image : Option String → Element
  | node : ElemList → Element
inductive ElemList : Type where
  | nil : ElemList
  | cons : Element → ElemList → ElemList
end

/-- Index lookup in a child list (`getChild(i)`). -/
def ElemList.nth : ElemList → Nat → Option Element
  | .nil, _ => none
  | .cons c _, 0 => some c
  | .cons _ cs, n + 1 => cs.nth n

/-- Apply `f` to the `i`-th child, when it exists. -/
def ElemList.modifyNth : ElemList → Nat → (Element → Element) → ElemList
  | .nil, _, _ => .nil
  | .cons c cs, 0, f => .cons (f c) cs
  | .cons c cs, n + 1, f => .cons c (cs.modifyNth n f)

/-- Number of children (`getNumChildren()`). -/
def ElemList.len : ElemList → Nat
  | .nil => 0
  | .cons _ cs => cs.len + 1

mutual
/-- Text content of an element (`getText()`): a text run yields its string,
an image yields the blank string, a container concatenates its children. -/
def Element.getText : Element → String
  | .text chars => ⟨chars.map Prod.fst⟩
  | .image _ => ""
  | .node cs => ElemList.getTextList cs
def ElemList.getTextList : ElemList → String
  | .nil => ""
  | .cons c cs => Element.getText c ++ ElemList.getTextList cs
end

/-- Whether the element exposes the `editAsText` capability: text runs and
containers do, inline images do not. -/
def Element.hasEditAsText : Element → Bool
  | .text _ => true
  | .image _ => false
  | .node _ => true

/-- Whether `getType()` is `ElementType.TEXT`. -/
def Element.isTextType : Element → Bool
  | .text _ => true
  | _ => false

/-- Element reached from `root` by a child-index path. -/
def getAt : Element → List Nat → Option Element
  | e, [] => some e
  | .node cs, i :: p =>
    match cs.nth i with
    | some c => getAt c p
    | none => none
  | _, _ :: _ => none

/-- Rewrite the element at a child-index path. -/
def modifyAt : Element → List Nat → (Element → Element) → Element
  | e, [], f => f e
  | .node cs, i :: p, f => .node (cs.modifyNth i (fun c => modifyAt c p f))
  | e, _ :: _, _ => e

/-- `setLinkUrl(link)` on a single element: set the link on every character
of a text run, set the image link, and do nothing observable on a
(necessarily empty, see `setLinkOnAllChildren`) container. -/
def setLinkUrlWhole (v : String) : Element → Element
  | .text chars => .text (chars.map (fun c => (c.1, some v)))
  | .image _ => .image (some v)
  | .node cs => .node cs

/-- Characters of a text run with the link set on indices `s ≤ i ≤ t`;
`i` is the index of the head of the list. -/
def setRangeChars (v : String) (s t : Nat) : Nat → List (Char × Option String) →
    List (Char × Option String)
  | _, [] => []
  | i, c :: cs =>
    (if s ≤ i ∧ i ≤ t then (c.1, some v) else c) :: setRangeChars v s t (i + 1) cs

/-- `setLinkUrl(startOffset, endOffsetInclusive, link)` on a text element. -/
def setLinkUrlRange (s t : Nat) (v : String) : Element → Element
  | .text chars => .text (setRangeChars v s t 0 chars)
  | e => e

mutual
/-- `setLinkOnAllChildren` from the source: an element with no
`getNumChildren` capability (text, image) or zero children receives
`setLinkUrl(link)` directly; otherwise recurse into every child in order. -/
def setLinkOnAllChildren : Element → String → Element
  | .text chars, v => setLinkUrlWhole v (.text chars)
  | .image l, v => setLinkUrlWhole v (.image l)
  | .node .nil, v => setLinkUrlWhole v (.node .nil)
  | .node (.cons c cs), v => .node (setChildren (.cons c cs) v)
def setChildren : ElemList → String → ElemList
  | .nil, _ => .nil
  | .cons c cs, v => .cons (setLinkOnAllChildren c v) (setChildren cs v)
end

mutual
/-- Instrumented run of `setLinkOnAllChildren`: the resulting element
together with the paths (relative, depth-first, in visit order) of the
elements that received a direct `setLinkUrl` call. -/
def setLinkRun : Element → String → Element × List (List Nat)
  | .text chars, v => (setLinkUrlWhole v (.text chars), [[]])
  | .image l, v => (setLinkUrlWhole v (.image l), [[]])
  | .node .nil, v => (setLinkUrlWhole v (.node .nil), [[]])
  | .node (.cons c cs), v =>
    let r := setLinkRunList 0 (.cons c cs) v
    (.node r.1, r.2)
def setLinkRunList : Nat → ElemList → String → ElemList × List (List Nat)
  | _, .nil, _ => (.nil, [])
  | i, .cons c cs, v =>
    let rc := setLinkRun c v
    let rs := setLinkRunList (i + 1) cs v
    (.cons rc.1 rs.1, rc.2.map (i :: ·) ++ rs.2)
end

mutual
/-- Fuel-indexed variant of `setLinkOnAllChildren`: `none` when the fuel is
exhausted before the recursion bottoms out. -/
def setLinkFuel : Nat → Element → String → Option Element
  | 0, _, _ => none
  | _ + 1, .text chars, v => some (setLinkUrlWhole v (.text chars))
  | _ + 1, .image l, v => some (setLinkUrlWhole v (.image l))
  | _ + 1, .node .nil, v => some (setLinkUrlWhole v (.node .nil))
  | n + 1, .node (.cons c cs), v =>
    match setLinkFuelList n (.cons c cs) v with
    | some cs1 => some (.node cs1)
    | none => none
def setLinkFuelList : Nat → ElemList → String → Option ElemList
  | _, .nil, _ => some .nil
  | n, .cons c cs, v =>
    match setLinkFuel n c v, setLinkFuelList n cs v with
    | some c1, some cs1 => some (.cons c1 cs1)
    | _, _ => none
end

mutual
/-- Depth of an element tree (a childless element has depth 0). -/
def Element.depth : Element → Nat
  | .text _ => 0
  | .image _ => 0
  | .node cs => ElemList.depthList cs
def ElemList.depthList : ElemList → Nat
  | .nil => 0
  | .cons c cs => max (Element.depth c + 1) (ElemList.depthList cs)
end

/-- Specification-side leaf test: an element with no children or without
the child capability (text runs, images, empty containers). -/
def Element.isLeaf : Element → Bool
  | .node (.cons _ _) => false
  | _ => true

mutual
/-- Depth-first enumeration (in child-index order) of all paths of a tree. -/
def allPaths : Element → List (List Nat)
  | .text _ => [[]]
  | .image _ => [[]]
  | .node cs => [] :: allPathsList 0 cs
def allPathsList : Nat → ElemList → List (List Nat)
  | _, .nil => []
  | i, .cons c cs => (allPaths c).map (i :: ·) ++ allPathsList (i + 1) cs
end

/-! ## Selections, cursors, documents -/

/-- A range element of a selection: a reference to a document element
(by path) plus, when the range is partial, the inclusive start/end
character offsets. -/
structure RangeElement where
  path : List Nat
  partialRange : Option (Nat × Nat)
deriving DecidableEq

/-- A cursor: a zero-width insertion point inside the text element at
`path`, `offset` characters in.  `getSurroundingText()` is that element,
`getSurroundingTextOffset()` is `offset`. -/
structure Cursor where
  path : List Nat
  offset : Nat
deriving DecidableEq

/-- The active document: an element tree plus the host-provided selection
and cursor state. -/
structure Doc where
  root : Element
  selection : Option (List RangeElement)
  cursor : Option Cursor

/-- A file handle returned by the drive search service. -/
structure DriveFile where
  name : String
  url : String
deriving DecidableEq

/-- The uniform result shape `{word, url, page}` of both resolvers. -/
structure LinkResult where
  word : String
  url : Option String
  page : String
deriving DecidableEq

/-- The fault text thrown by `getSelectedText`. -/
def errSelect : String := "Please select some text."

/-- The fault text thrown by `insertLink`. -/
def errInsert : String := "To insert, select a location in the document"

/-! ## The source functions -/

/-- Contribution of one range element to `getSelectedText`: a partial range
pushes `getText().substring(start, endInclusive + 1)` of its element
unconditionally; a whole range pushes the element's full text only when the
element exposes `editAsText` and the text is non-blank. -/
def rangeContrib (root : Element) (re : RangeElement) : List String :=
  match re.partialRange with
  | some (s, e) =>
    let el := (getAt root re.path).getD (.node .nil)
    [jsSubstring el.getText s (e + 1)]
  | none =>
    match getAt root re.path with
    | some el =>
      if el.hasEditAsText then
        let t := el.getText
        if t ≠ "" then [t] else []
      else []
    | none => []

/-- The accumulated `text` array of `getSelectedText`. -/
def selectedFragments (root : Element) (es : List RangeElement) : List String :=
  es.foldl (fun acc re => acc ++ rangeContrib root re) []

/-- `getSelectedText` from the source: walk the selection's range elements;
throw `errSelect` when there is no selection or the collected array stays
empty. -/
def getSelectedText (doc : Doc) : Except String (List String) :=
  match doc.selection with
  | some elements =>
    let text := selectedFragments doc.root elements
    if text.length = 0 then .error errSelect
    else .ok text
  | none => .error errSelect

/-- The radio-button line appended for one matching file in
`createDriveUrls`. -/
def radioFragment (f : DriveFile) : String :=
  "<input type=\"radio\" name=\"link\" value=\"" ++ f.url ++
    "\" checked=true>" ++ f.name ++ "<br>"

/-- The `while (files.hasNext())` loop of `createDriveUrls`, carrying the
`filesList` and `url` variables. -/
def driveLoop : List DriveFile → String → Option String → String × Option String
  | [], acc, u => (acc, u)
  | f :: fs, acc, _ =>
    let acc1 := if acc = "" then "<form action=\"\"> " else acc
    driveLoop fs (acc1 ++ radioFragment f) (some f.url)

/-- `createDriveUrls` from the source.  The drive search service is opaque;
`files` is the sequence its iterator yields for the title query. -/
def createDriveUrls (files : List DriveFile) (text : List String) : LinkResult :=
  let word := text.headD ""
  let r := driveLoop files "" none
  if r.1 = "" then
    { word := word, url := r.2, page := "No matching results found :-(" }
  else
    { word := word, url := r.2, page := r.1 ++ "</form>" }

/-- `createWikiUrl` from the source.  The HTTP service is opaque; `fetch`
maps a URL to the body text the muted-exception fetch returns. -/
def createWikiUrl (fetch : String → String) (text : List String)
    (lang : Option String) : LinkResult :=
  let word := jsTrim (text.headD "")
  let lang1 := match lang with
    | some l => if l = "" then "en" else l
    | none => "en"
  let url := "http://" ++ lang1 ++ ".wikipedia.org/wiki/" ++ encodeURI word
  let body := fetch url
  { word := word, url := some url,
    page := ⟨jsReplaceAll hrefPat hrefRep body.data⟩ }

/-- `linkify` from the source: extract the selected text (propagating its
fault), then dispatch on `method`; any other method falls through and the
function returns `undefined`. -/
def linkify (doc : Doc) (files : List DriveFile) (fetch : String → String)
    (method : String) (lang : Option String) :
    Except String (Option LinkResult) :=
  match getSelectedText doc with
  | .error e => .error e
  | .ok text =>
    if method = "url" then .ok (some (createWikiUrl fetch text lang))
    else if method = "searchDrive" then .ok (some (createDriveUrls files text))
    else .ok none

/-- One iteration of the `insertLink` selection loop: a partial range over a
`TEXT`-typed element gets `setLinkUrl(start, endInclusive, link)`; every
other range element gets `setLinkOnAllChildren`. -/
def applyRange (link : String) (root : Element) (re : RangeElement) : Element :=
  match re.partialRange with
  | some (s, e) =>
    if (match getAt root re.path with
        | some el => el.isTextType
        | none => false) then
      modifyAt root re.path (setLinkUrlRange s e link)
    else
      modifyAt root re.path (fun el => setLinkOnAllChildren el link)
  | none => modifyAt root re.path (fun el => setLinkOnAllChildren el link)

/-- The padded text inserted at a cursor: a space is prepended when the
character before the insertion point is present and, compared as a JS
string, differs from a space; likewise a space is appended for the
character at the insertion point. -/
def cursorPad (surroundingText : String) (surroundingTextOffset : Nat)
    (newText : String) : String :=
  let t1 :=
    if surroundingTextOffset > 0 then
      if jsCharAt surroundingText (surroundingTextOffset - 1) ≠ " " then
        " " ++ newText
      else newText
    else newText
  if surroundingTextOffset < surroundingText.data.length then
    if jsCharAt surroundingText surroundingTextOffset ≠ " " then t1 ++ " "
    else t1
  else t1

/-- `cursor.insertText(t).setLinkUrl(link)`: splice `t` into the text run at
the insertion offset, every inserted character carrying the link. -/
def insertTextLinked (offset : Nat) (t : String) (link : String) :
    Element → Element
  | .text chars =>
    .text (chars.take offset ++ t.data.map (fun c => (c, some link)) ++
      chars.drop offset)
  | e => e

/-- `insertLink` from the source, as a state transformer: the updated
document paired with the thrown fault, if any.  With a selection, every
range element is processed in order; with no selection and no cursor the
fault is raised before any mutation; at a cursor the padded text is
inserted and linked. -/
def insertLink (doc : Doc) (newText link : String) : Doc × Option String :=
  match doc.selection with
  | some elements =>
    ({ doc with root := elements.foldl (applyRange link) doc.root }, none)
  | none =>
    match doc.cursor with
    | none => (doc, some errInsert)
    | some cur =>
      let surroundingText := ((getAt doc.root cur.path).getD (.node .nil)).getText
      let t := cursorPad surroundingText cur.offset newText
      ({ doc with
          root := modifyAt doc.root cur.path (insertTextLinked cur.offset t link) },
        none)

/-- The two kinds of link-setting operation that the `insertLink` selection
loop applies at a range element's path: a partial `setLinkUrl(s, t, link)`
on a text element, or `setLinkOnAllChildren`. -/
inductive Setter (v : String) : (Element → Element) → Prop where
  | range (s t : Nat) : Setter v (setLinkUrlRange s t v)
  | whole : Setter v (fun el => setLinkOnAllChildren el v)

mutual
/-- The element tree with all links erased: its "skeleton" (structure and
characters), which every link-setting operation preserves. -/
def eraseLinks : Element → Element
  | .text chars => .text (chars.map (fun c => (c.1, none)))
  | .image _ => .image none
  | .node cs => .node (eraseLinksList cs)
def eraseLinksList : ElemList → ElemList
  | .nil => .nil
  | .cons c cs => .cons (eraseLinks c) (eraseLinksList cs)
end

/-! ## Specification-side helpers for the drive-search page -/

/-- The opening markup of one radio input in the drive-search page. -/
def radioPat : List Char := "<input type=\"radio\" name=\"link\" value=\"".data

/-- The default-selected marker that follows each candidate URL. -/
def checkedPat : List Char := "\" checked=true>".data

/-- `spanFree pat x` holds when no occurrence of `pat` can start inside
`x`, whatever list follows `x`: no suffix of `x` starts with `pat`, and no
non-empty suffix of `x` is a prefix of `pat`. -/
def spanFree (pat : List Char) : List Char → Bool
  | [] => true
  | c :: x =>
    (!(c :: x).isPrefixOf pat && !pat.isPrefixOf (c :: x)) && spanFree pat x

/-- Concatenated radio fragments of a file list (closed form of the
`createDriveUrls` loop body). -/
def joinFrags : List DriveFile → String
  | [] => ""
  | f :: fs => radioFragment f ++ joinFrags fs

/-- Closed form of the `url` variable after the `createDriveUrls` loop. -/
def lastUrlD : List DriveFile → Option String → Option String
  | [], u => u
  | f :: fs, _ => lastUrlD fs (some f.url)

/-! ## General lemmas -/

theorem strData_append (a b : String) : (a ++ b).data = a.data ++ b.data := by
  cases a
  cases b
  rfl

theorem jsSubstring_eq_slice (l : List Char) (s e : Nat) (h1 : s ≤ e)
    (h2 : e ≤ l.length) :
    jsSubstring ⟨l⟩ s e = ⟨(l.drop s).take (e - s)⟩ := by
  simp only [jsSubstring]
  rw [Nat.min_eq_left (h1.trans h2), Nat.min_eq_left h2, Nat.min_eq_left h1,
    Nat.max_eq_right h1]

theorem jsCharAt_lt (s : String) (i : Nat) (h : i < s.data.length) :
    jsCharAt s i = ⟨[s.data[i]]⟩ := by
  rw [jsCharAt, List.getElem?_eq_getElem h]

theorem jsCharAt_oob (s : String) (i : Nat) (h : s.data.length ≤ i) :
    jsCharAt s i = "" := by
  rw [jsCharAt, List.getElem?_eq_none (by omega)]

theorem mk_single_eq_space (c : Char) : ((⟨[c]⟩ : String) = " ") ↔ c = ' ' := by
  constructor
  · intro h
    have h2 : [c] = (" " : String).data := congrArg String.data h
    have h3 : (" " : String).data = [' '] := by decide
    rw [h3] at h2
    simpa using h2
  · intro h
    subst h
    decide

/-! ## Claim theorems -/

/-- C5: for every partial range element over a text element (with valid
inclusive offsets), `getSelectedText` pushes the slice of the element's
text from the start offset to the end offset inclusive. -/
theorem getSelectedText_partial (root : Element) (p : List Nat)
    (chars : List (Char × Option String)) (s e : Nat) (cur : Option Cursor)
    (hget : getAt root p = some (.text chars))
    (hse : s ≤ e) (hlen : e < chars.length) :
    getSelectedText ⟨root, some [⟨p, some (s, e)⟩], cur⟩ =
      .ok [⟨((chars.map Prod.fst).drop s).take (e + 1 - s)⟩] := by
  have hL : (chars.map Prod.fst).length = chars.length := List.length_map _ _
  have hsub : jsSubstring ⟨chars.map Prod.fst⟩ s (e + 1) =
      ⟨((chars.map Prod.fst).drop s).take (e + 1 - s)⟩ :=
    jsSubstring_eq_slice _ _ _ (by omega) (by omega)
  simp only [getSelectedText, selectedFragments, List.foldl_cons, List.foldl_nil,
    rangeContrib, hget, Option.getD_some, List.nil_append, Element.getText, hsub]
  rfl

/-- C5 witness: offsets [1,3] on "hello" yield "ell". -/
theorem getSelectedText_partial_witness :
    getSelectedText
      ⟨Element.node (.cons
          (.text [('h', none), ('e', none), ('l', none), ('l', none), ('o', none)])
          .nil),
        some [⟨[0], some (1, 3)⟩], none⟩ = .ok ["ell"] := by
  have h := getSelectedText_partial
    (Element.node (.cons
      (.text [('h', none), ('e', none), ('l', none), ('l', none), ('o', none)])
      .nil))
    [0] [('h', none), ('e', none), ('l', none), ('l', none), ('o', none)]
    1 3 none rfl (by decide) (by decide)
  exact h.trans (by rfl)

/-- C6: the text inserted at a cursor is `newText` with a space prepended
exactly when the preceding character exists and is not a space, and a space
appended exactly when the following character exists and is not a space
(for any valid cursor offset, i.e. `offset ≤ length`). -/
theorem cursorPad_pads_iff (s : String) (off : Nat) (nt : String)
    (h : off ≤ s.data.length) :
    cursorPad s off nt =
      (if ((if 0 < off then s.data[off - 1]? else none).any fun c => c != ' ')
        then " " ++ nt else nt) ++
      (if ((s.data[off]?).any fun c => c != ' ') then " " else "") := by
  have hpre : (if off > 0 then
      (if jsCharAt s (off - 1) ≠ " " then " " ++ nt else nt) else nt) =
      (if ((if 0 < off then s.data[off - 1]? else none).any fun c => c != ' ')
        then " " ++ nt else nt) := by
    by_cases h0 : 0 < off
    · have hlt : off - 1 < s.data.length := by omega
      rw [if_pos h0, if_pos h0, List.getElem?_eq_getElem hlt, jsCharAt_lt _ _ hlt]
      by_cases hc : s.data[off - 1] = ' '
      · rw [if_neg (by simp [mk_single_eq_space, hc]), if_neg (by simp [hc])]
      · rw [if_pos (by simp [mk_single_eq_space, hc]), if_pos (by simp [hc])]
    · rw [if_neg h0, if_neg h0]
      simp [Option.any]
  have hpost : ∀ t : String, (if off < s.data.length then
      (if jsCharAt s off ≠ " " then t ++ " " else t) else t) =
      t ++ (if ((s.data[off]?).any fun c => c != ' ') then " " else "") := by
    intro t
    by_cases h1 : off < s.data.length
    · rw [if_pos h1, jsCharAt_lt _ _ h1, List.getElem?_eq_getElem h1]
      by_cases hc : s.data[off] = ' '
      · rw [if_neg (by simp [mk_single_eq_space, hc]), if_neg (by simp [hc])]
        exact (String.append_empty t).symm
      · rw [if_pos (by simp [mk_single_eq_space, hc]), if_pos (by simp [hc])]
    · have h2 : s.data[off]? = none := List.getElem?_eq_none (by omega)
      rw [if_neg h1, h2]
      simp [Option.any]
  rw [cursorPad, hpre, hpost]

/-- C6 witness: inserting "link" between "x" and "y" yields " link ", both
paddings applied. -/
theorem cursorPad_pads_iff_witness :
    cursorPad "xy" 1 "link" = " link " := by
  have h := cursorPad_pads_iff "xy" 1 "link" (by decide)
  exact h.trans (by decide)

/-- C7: `getSelectedText` fails with the "no text selected" fault exactly
when there is no selection or every visited range element contributed no
usable text; both causes produce the very same fault value. -/
theorem getSelectedText_error_iff (doc : Doc) :
    getSelectedText doc = .error errSelect ↔
      doc.selection = none ∨
        ∃ es, doc.selection = some es ∧ selectedFragments doc.root es = [] := by
  rcases hsel : doc.selection with _ | es
  · simp [getSelectedText, hsel]
  · simp only [getSelectedText, hsel]
    by_cases hemp : selectedFragments doc.root es = []
    · simp [hemp]
    · have hne : (selectedFragments doc.root es).length ≠ 0 := by
        simpa [List.length_eq_zero] using hemp
      simp [if_neg hne, hemp]

/-- C8: `insertLink` raises the "no insertion point" fault exactly when
neither a selection nor a cursor is available, and in that case the
document state is returned unchanged. -/
theorem insertLink_fault_iff (doc : Doc) (nt l : String) :
    (insertLink doc nt l = (doc, some errInsert) ↔
      doc.selection = none ∧ doc.cursor = none) ∧
    ((insertLink doc nt l).2 = none ↔
      ¬(doc.selection = none ∧ doc.cursor = none)) := by
  rcases hsel : doc.selection with _ | es
  · rcases hcur : doc.cursor with _ | cur
    · simp [insertLink, hsel, hcur]
    · simp [insertLink, hsel, hcur]
  · simp [insertLink, hsel]

/-- C9: for any method other than "url" and "searchDrive", when extraction
succeeds, `linkify` falls through both dispatch tests and returns
`undefined` (no result and no fault). -/
theorem linkify_other_method (doc : Doc) (files : List DriveFile)
    (fetch : String → String) (method : String) (lang : Option String)
    (ts : List String)
    (h1 : getSelectedText doc = .ok ts)
    (h2 : method ≠ "url") (h3 : method ≠ "searchDrive") :
    linkify doc files fetch method lang = .ok none := by
  simp [linkify, h1, h2, h3]

/-- C9 witness: a concrete document with a usable selection and the method
"translate". -/
theorem linkify_other_method_witness :
    linkify ⟨Element.node (.cons (.text [('h', none)]) .nil),
        some [⟨[0], none⟩], none⟩ [] (fun _ => "") "translate" none = .ok none :=
  linkify_other_method _ [] (fun _ => "") "translate" none ["h"]
    (by rfl) (by decide) (by decide)

mutual
theorem setLinkFuel_complete (e : Element) (v : String) (n : Nat)
    (h : Element.depth e < n) :
    setLinkFuel n e v = some (setLinkOnAllChildren e v) :=
  match n, e with
  | _ + 1, .text _ => rfl
  | _ + 1, .image _ => rfl
  | _ + 1, .node .nil => rfl
  | n + 1, .node (.cons c cs) => by
    have hd : ElemList.depthList (.cons c cs) ≤ n := by
      have h2 := h
      simp only [Element.depth] at h2
      omega
    rw [setLinkFuel, setLinkFuelList_complete (.cons c cs) v n hd]
    rfl
theorem setLinkFuelList_complete (cs : ElemList) (v : String) (n : Nat)
    (h : ElemList.depthList cs ≤ n) :
    setLinkFuelList n cs v = some (setChildren cs v) :=
  match cs with
  | .nil => rfl
  | .cons c cs1 => by
    have h1 : Element.depth c < n := by
      simp only [ElemList.depthList] at h
      omega
    have h2 : ElemList.depthList cs1 ≤ n := by
      simp only [ElemList.depthList] at h
      omega
    rw [setLinkFuelList, setLinkFuel_complete c v n h1,
      setLinkFuelList_complete cs1 v n h2]
    rfl
end

/-- C10: `setLinkOnAllChildren` terminates on every (finite, acyclic by
construction) element tree: fuel bounded by the tree depth plus one already
suffices for the fuel-indexed variant to finish and agree with the
recursive function, so the recursion is well-founded on tree depth with no
visited-set. -/
theorem setLinkOnAllChildren_terminates (e : Element) (v : String) :
    setLinkFuel (Element.depth e + 1) e v = some (setLinkOnAllChildren e v) :=
  setLinkFuel_complete e v (Element.depth e + 1) (by omega)

theorem allPathsList_head (cs : ElemList) : ∀ i p, p ∈ allPathsList i cs →
    ∃ j p1, p = j :: p1 ∧ i ≤ j :=
  match cs with
  | .nil => by
    intro i p hp
    simp [allPathsList] at hp
  | .cons c cs1 => by
    intro i p hp
    simp only [allPathsList, List.mem_append, List.mem_map] at hp
    rcases hp with ⟨q, _, rfl⟩ | hp
    · exact ⟨i, q, rfl, le_refl i⟩
    · obtain ⟨j, p1, rfl, hj⟩ := allPathsList_head cs1 (i + 1) _ hp
      exact ⟨j, p1, rfl, by omega⟩

mutual
theorem setLinkRun_fst (e : Element) (v : String) :
    (setLinkRun e v).1 = setLinkOnAllChildren e v :=
  match e with
  | .text _ => rfl
  | .image _ => rfl
  | .node .nil => rfl
  | .node (.cons c cs) => by
    show Element.node (setLinkRunList 0 (.cons c cs) v).1 = _
    rw [setLinkRunList_fst (.cons c cs) v 0]
    rfl
theorem setLinkRunList_fst (cs : ElemList) (v : String) : ∀ i,
    (setLinkRunList i cs v).1 = setChildren cs v :=
  match cs with
  | .nil => fun _ => rfl
  | .cons c cs1 => fun i => by
    show ElemList.cons (setLinkRun c v).1 (setLinkRunList (i + 1) cs1 v).1 = _
    rw [setLinkRun_fst c v, setLinkRunList_fst cs1 v (i + 1)]
    rfl
end

mutual
theorem setLinkRun_trace (e : Element) (v : String) :
    (setLinkRun e v).2 = (allPaths e).filter
      (fun p => ((getAt e p).map Element.isLeaf).getD false) :=
  match e with
  | .text _ => rfl
  | .image _ => rfl
  | .node .nil => rfl
  | .node (.cons c cs) => by
    show (setLinkRunList 0 (.cons c cs) v).2 = _
    rw [setLinkRunList_trace (.cons c cs) v 0]
    show _ = List.filter _ ([] :: allPathsList 0 (.cons c cs))
    rw [List.filter_cons]
    have hfalse : (((getAt (Element.node (.cons c cs)) []).map
        Element.isLeaf).getD false) = false := rfl
    rw [hfalse]
    simp only [Bool.false_eq_true, if_false]
    apply List.filter_congr
    intro p hp
    obtain ⟨j, p1, rfl, _⟩ := allPathsList_head (.cons c cs) 0 p hp
    rcases hn : ElemList.nth (.cons c cs) j with _ | c0 <;>
      simp [getAt, hn, Nat.sub_zero]
theorem setLinkRunList_trace (cs : ElemList) (v : String) : ∀ i,
    (setLinkRunList i cs v).2 = (allPathsList i cs).filter
      (fun p => ((match p with
        | [] => (none : Option Element)
        | j :: p1 =>
          match ElemList.nth cs (j - i) with
          | some c => getAt c p1
          | none => none).map Element.isLeaf).getD false) :=
  match cs with
  | .nil => fun _ => rfl
  | .cons c cs1 => fun i => by
    show (setLinkRun c v).2.map (i :: ·) ++ (setLinkRunList (i + 1) cs1 v).2 = _
    rw [setLinkRun_trace c v, setLinkRunList_trace cs1 v (i + 1)]
    show _ = List.filter _ ((allPaths c).map (i :: ·) ++ allPathsList (i + 1) cs1)
    rw [List.filter_append, List.filter_map]
    congr 1
    · congr 1
      apply List.filter_congr
      intro p _
      simp [Function.comp, Nat.sub_self, ElemList.nth]
    · apply List.filter_congr
      intro p hp
      obtain ⟨j, p1, rfl, hj⟩ := allPathsList_head cs1 (i + 1) p hp
      have hji : j - i = (j - (i + 1)) + 1 := by omega
      simp [hji, ElemList.nth]
end

/-- C4: running `setLinkOnAllChildren` over any (finite, acyclic) element
tree given to the link applier as a non-partial range element assigns the
link by a direct `setLinkUrl` call to exactly the leaves (elements with no
children or without the child capability), visiting children depth-first in
child-index order, and to no composite element: the instrumented run agrees
with the plain function, and its assignment trace is precisely the
depth-first list of leaf paths. -/
theorem setLinkOnAllChildren_leaves (e : Element) (v : String) :
    (setLinkRun e v).1 = setLinkOnAllChildren e v ∧
    (setLinkRun e v).2 = (allPaths e).filter
      (fun p => ((getAt e p).map Element.isLeaf).getD false) :=
  ⟨setLinkRun_fst e v, setLinkRun_trace e v⟩

/-! ## Counting occurrences in the drive-search page -/

theorem countOcc_cons_false (pat : List Char) (c : Char) (s : List Char)
    (h : pat.isPrefixOf (c :: s) = false) :
    countOcc pat (c :: s) = countOcc pat s := by
  rw [countOcc, h]
  simp

theorem countOcc_append_skip (pat x y : List Char) (hs : spanFree pat x = true) :
    countOcc pat (x ++ y) = countOcc pat y := by
  induction x with
  | nil => rfl
  | cons c x ih =>
    simp only [spanFree, Bool.and_eq_true, Bool.not_eq_true'] at hs
    obtain ⟨⟨h1, h2⟩, h3⟩ := hs
    have hnp : pat.isPrefixOf ((c :: x) ++ y) = false := by
      by_contra hcon
      rw [Bool.not_eq_false] at hcon
      have hp : pat <+: ((c :: x) ++ y) := List.isPrefixOf_iff_prefix.mp hcon
      have hx : (c :: x) <+: ((c :: x) ++ y) := List.prefix_append _ _
      rcases List.prefix_or_prefix_of_prefix hp hx with h | h
      · have := List.isPrefixOf_iff_prefix.mpr h
        rw [h2] at this
        exact Bool.false_ne_true this
      · have := List.isPrefixOf_iff_prefix.mpr h
        rw [h1] at this
        exact Bool.false_ne_true this
    rw [List.cons_append] at hnp ⊢
    rw [countOcc_cons_false _ _ _ hnp]
    exact ih h3

theorem countOcc_append_notMem (a : Char) (pt x y : List Char) (hx : a ∉ x) :
    countOcc (a :: pt) (x ++ y) = countOcc (a :: pt) y := by
  induction x with
  | nil => rfl
  | cons c x ih =>
    have hac : (a == c) = false := by
      have : ¬a = c := fun h => hx (h ▸ List.mem_cons_self c x)
      simpa using this
    have hnp : (a :: pt).isPrefixOf (c :: (x ++ y)) = false := by
      simp [List.isPrefixOf, hac]
    rw [List.cons_append, countOcc_cons_false _ _ _ hnp]
    exact ih (fun h => hx (List.mem_cons_of_mem c h))

theorem countOcc_self_append (c : Char) (pt z : List Char)
    (hs : spanFree (c :: pt) pt = true) :
    countOcc (c :: pt) ((c :: pt) ++ z) = 1 + countOcc (c :: pt) z := by
  have h0 : (c :: pt).isPrefixOf ((c :: pt) ++ z) = true :=
    List.isPrefixOf_iff_prefix.mpr (List.prefix_append _ _)
  rw [List.cons_append, countOcc]
  rw [List.cons_append] at h0
  rw [h0]
  simp only [if_true]
  rw [countOcc_append_skip _ _ _ hs]

theorem countOcc_nil (pat : List Char) : countOcc pat [] = 0 := rfl

/-- One radio fragment contributes exactly one `radioPat` occurrence. -/
theorem countOcc_radio_frag (f : DriveFile) (rest : List Char)
    (hn : '<' ∉ f.name.data) (hu : '<' ∉ f.url.data) :
    countOcc radioPat ((radioFragment f).data ++ rest) =
      1 + countOcc radioPat rest := by
  have hdata : (radioFragment f).data =
      radioPat ++ (f.url.data ++ ("\" checked=true>".data ++ (f.name.data ++
        "<br>".data))) := by
    simp only [radioFragment, strData_append, radioPat, List.append_assoc]
  rw [hdata, List.append_assoc]
  simp only [List.append_assoc]
  have hhead : radioPat = '<' :: radioPat.tail := by decide
  rw [hhead, countOcc_self_append _ _ _ (by decide),
    countOcc_append_notMem '<' radioPat.tail _ _ hu,
    countOcc_append_skip _ ("\" checked=true>".data) _ (by decide),
    countOcc_append_notMem '<' radioPat.tail _ _ hn,
    countOcc_append_skip _ ("<br>".data) _ (by decide)]

/-- One radio fragment contributes exactly one `checkedPat` occurrence. -/
theorem countOcc_checked_frag (f : DriveFile) (rest : List Char)
    (hn : '"' ∉ f.name.data) (hu1 : '"' ∉ f.url.data) (hu2 : ' ' ∉ f.url.data) :
    countOcc checkedPat ((radioFragment f).data ++ rest) =
      1 + countOcc checkedPat rest := by
  have hdata : (radioFragment f).data =
      "<input type=\"radio\" name=\"link\" value=".data ++
        ('"' :: (f.url.data ++ (checkedPat ++ (f.name.data ++
          "<br>".data)))) := by
    simp only [radioFragment, strData_append, checkedPat, List.append_assoc]
    simp [List.cons_append]
  rw [hdata, List.append_assoc, countOcc_append_skip checkedPat _ _ (by decide),
    List.cons_append]
  have hskip : checkedPat.isPrefixOf
      ('"' :: ((f.url.data ++ (checkedPat ++ (f.name.data ++ "<br>".data))) ++
        rest)) = false := by
    have hchk : checkedPat = '"' :: ' ' :: "checked=true>".data := by decide
    rcases hurl : f.url.data with _ | ⟨u, us⟩
    · have hb : (' ' == '"') = false := by decide
      rw [hchk]
      simp [hurl, List.isPrefixOf, checkedPat, hb]
    · have hb : (' ' == u) = false := by
        have hne2 : ¬ (' ' = u) := by
          intro h
          exact hu2 (by rw [hurl, ← h]; exact List.mem_cons_self _ _)
        simpa using hne2
      rw [hchk]
      simp [hurl, List.isPrefixOf, hb]
  rw [countOcc_cons_false _ _ _ hskip]
  simp only [List.append_assoc]
  have hhead : checkedPat = '"' :: checkedPat.tail := by decide
  rw [hhead, countOcc_append_notMem '"' checkedPat.tail _ _ hu1,
    countOcc_self_append _ _ _ (by decide),
    countOcc_append_notMem '"' checkedPat.tail _ _ hn,
    countOcc_append_skip _ ("<br>".data) _ (by decide)]

theorem countOcc_radio_join (fs : List DriveFile) (rest : List Char)
    (h : ∀ f ∈ fs, '<' ∉ f.name.data ∧ '<' ∉ f.url.data) :
    countOcc radioPat ((joinFrags fs).data ++ rest) =
      fs.length + countOcc radioPat rest := by
  induction fs with
  | nil => simp [joinFrags]
  | cons f fs ih =>
    have hf := h f (List.mem_cons_self _ _)
    rw [joinFrags, strData_append, List.append_assoc,
      countOcc_radio_frag f _ hf.1 hf.2,
      ih (fun g hg => h g (List.mem_cons_of_mem f hg))]
    simp only [List.length_cons]
    omega

theorem countOcc_checked_join (fs : List DriveFile) (rest : List Char)
    (h : ∀ f ∈ fs, '"' ∉ f.name.data ∧ '"' ∉ f.url.data ∧ ' ' ∉ f.url.data) :
    countOcc checkedPat ((joinFrags fs).data ++ rest) =
      fs.length + countOcc checkedPat rest := by
  induction fs with
  | nil => simp [joinFrags]
  | cons f fs ih =>
    have hf := h f (List.mem_cons_self _ _)
    rw [joinFrags, strData_append, List.append_assoc,
      countOcc_checked_frag f _ hf.1 hf.2.1 hf.2.2,
      ih (fun g hg => h g (List.mem_cons_of_mem f hg))]
    simp only [List.length_cons]
    omega

theorem str_eq_empty_iff (s : String) : s = "" ↔ s.data = [] := by
  constructor
  · intro h
    rw [h]
  · intro h
    cases s
    simp only at h
    rw [h]

theorem str_append_assoc (a b c : String) : (a ++ b) ++ c = a ++ (b ++ c) := by
  cases a
  cases b
  cases c
  show String.mk _ = String.mk _
  rw [List.append_assoc]

theorem driveLoop_closed (fs : List DriveFile) : ∀ acc u, acc ≠ "" →
    driveLoop fs acc u = (acc ++ joinFrags fs, lastUrlD fs u) := by
  induction fs with
  | nil =>
    intro acc u _
    simp [driveLoop, joinFrags, lastUrlD]
  | cons f fs ih =>
    intro acc u hacc
    have hne2 : acc ++ radioFragment f ≠ "" := by
      rw [Ne, str_eq_empty_iff, strData_append, List.append_eq_nil]
      intro hcon
      exact hacc ((str_eq_empty_iff acc).mpr hcon.1)
    rw [driveLoop, if_neg hacc, ih _ _ hne2, joinFrags, lastUrlD,
      str_append_assoc]

theorem lastUrlD_getLast : ∀ (fs : List DriveFile) (f : DriveFile),
    lastUrlD fs (some f.url) = some ((f :: fs).getLast (by simp)).url := by
  intro fs
  induction fs with
  | nil => intro f; rfl
  | cons g fs ih =>
    intro f
    rw [lastUrlD, ih g]
    congr 1

/-- C3 (amended): for every non-empty file-search result sequence whose
file names contain neither `<` nor `"` and whose URLs contain none of `<`,
`"`, space, the page returned by `createDriveUrls` contains exactly N radio
inputs and the returned url is the URL of the last enumerated match — but
every listed candidate (not only the last) carries the `checked=true`
default-selection marker; the last one wins only by the HTML rule that a
later `checked` radio overrides earlier ones. -/
theorem createDriveUrls_page (files : List DriveFile) (text : List String)
    (hne : files ≠ [])
    (hgood : ∀ f ∈ files, ('<' ∉ f.name.data ∧ '"' ∉ f.name.data) ∧
      ('<' ∉ f.url.data ∧ '"' ∉ f.url.data ∧ ' ' ∉ f.url.data)) :
    countOcc radioPat (createDriveUrls files text).page.data = files.length ∧
    countOcc checkedPat (createDriveUrls files text).page.data = files.length ∧
    (createDriveUrls files text).url = some (files.getLast hne).url := by
  obtain ⟨f, fs, rfl⟩ : ∃ f fs, files = f :: fs := by
    rcases files with _ | ⟨f, fs⟩
    · exact absurd rfl hne
    · exact ⟨f, fs, rfl⟩
  have hstart : ("<form action=\"\"> " ++ radioFragment f : String) ≠ "" := by
    rw [Ne, str_eq_empty_iff, strData_append, List.append_eq_nil]
    intro hcon
    have := hcon.1
    simp at this
  have hloop : driveLoop (f :: fs) "" none =
      (("<form action=\"\"> " ++ radioFragment f) ++ joinFrags fs,
        lastUrlD fs (some f.url)) := by
    rw [driveLoop, if_pos rfl, driveLoop_closed fs _ _ hstart]
  have hpne : (("<form action=\"\"> " ++ radioFragment f) ++ joinFrags fs) ≠ "" := by
    rw [Ne, str_eq_empty_iff, strData_append, List.append_eq_nil]
    intro hcon
    exact hstart ((str_eq_empty_iff _).mpr hcon.1)
  have hres : createDriveUrls (f :: fs) text =
      { word := text.headD "",
        url := lastUrlD fs (some f.url),
        page := (("<form action=\"\"> " ++ radioFragment f) ++ joinFrags fs) ++
          "</form>" } := by
    rw [createDriveUrls, hloop, if_neg hpne]
  rw [hres]
  have hgf := hgood f (List.mem_cons_self _ _)
  have hdata : ((("<form action=\"\"> " ++ radioFragment f) ++ joinFrags fs) ++
      ("</form>" : String)).data =
      ("<form action=\"\"> " : String).data ++ ((radioFragment f).data ++
        ((joinFrags fs).data ++ ("</form>" : String).data)) := by
    simp [strData_append, List.append_assoc]
  refine ⟨?_, ?_, ?_⟩
  · show countOcc radioPat _ = _
    rw [hdata]
    have hhead : radioPat = '<' :: radioPat.tail := by decide
    rw [hhead, countOcc_append_skip _ (("<form action=\"\"> " : String).data) _
        (by decide), ← hhead,
      countOcc_radio_frag f _ hgf.1.1 hgf.2.1,
      countOcc_radio_join fs _ (fun g hg =>
        ⟨(hgood g (List.mem_cons_of_mem f hg)).1.1,
          (hgood g (List.mem_cons_of_mem f hg)).2.1⟩)]
    have : countOcc radioPat (("</form>" : String).data) = 0 := by decide
    rw [this]
    simp only [List.length_cons]
    omega
  · show countOcc checkedPat _ = _
    rw [hdata]
    have hhead : checkedPat = '"' :: checkedPat.tail := by decide
    rw [hhead, countOcc_append_skip _ (("<form action=\"\"> " : String).data) _
        (by decide), ← hhead,
      countOcc_checked_frag f _ hgf.1.2 hgf.2.2.1 hgf.2.2.2,
      countOcc_checked_join fs _ (fun g hg =>
        ⟨(hgood g (List.mem_cons_of_mem f hg)).1.2,
          (hgood g (List.mem_cons_of_mem f hg)).2.2.1,
          (hgood g (List.mem_cons_of_mem f hg)).2.2.2⟩)]
    have : countOcc checkedPat (("</form>" : String).data) = 0 := by decide
    rw [this]
    simp only [List.length_cons]
    omega
  · show lastUrlD fs (some f.url) = _
    rw [lastUrlD_getLast fs f]

/-- C3 witness: a single matching file named "nm" with URL "u". -/
theorem createDriveUrls_page_witness :
    countOcc radioPat (createDriveUrls [⟨"nm", "u"⟩] ["w"]).page.data = 1 ∧
    countOcc checkedPat (createDriveUrls [⟨"nm", "u"⟩] ["w"]).page.data = 1 ∧
    (createDriveUrls [⟨"nm", "u"⟩] ["w"]).url = some "u" := by
  obtain ⟨h1, h2, h3⟩ := createDriveUrls_page [⟨"nm", "u"⟩] ["w"]
    (by simp) (by decide)
  exact ⟨h1.trans (by rfl), h2.trans (by rfl), h3.trans (by decide)⟩

/-- C3 counterexample: with two matching files the page carries the
`checked=true` default-selection marker on both radio inputs, so it is not
the case that only the last-listed candidate is marked default-selected. -/
theorem createDriveUrls_checked_counterexample :
    countOcc checkedPat
      (createDriveUrls [⟨"a", "u1"⟩, ⟨"b", "u2"⟩] ["w"]).page.data = 2 ∧
    ¬ countOcc checkedPat
      (createDriveUrls [⟨"a", "u1"⟩, ⟨"b", "u2"⟩] ["w"]).page.data = 1 := by
  constructor
  · decide
  · decide

/-! ## The href substitution of createWikiUrl -/

theorem jsReplaceAll_nil (pat rep : List Char) : jsReplaceAll pat rep [] = [] := by
  rw [jsReplaceAll.eq_def]

theorem jsReplaceAll_cons_pos (pat rep : List Char) (c : Char) (cs : List Char)
    (h : pat ≠ [] ∧ pat.isPrefixOf (c :: cs)) :
    jsReplaceAll pat rep (c :: cs) =
      rep ++ jsReplaceAll pat rep ((c :: cs).drop pat.length) := by
  rw [jsReplaceAll.eq_def]
  simp only []
  rw [if_pos h]

theorem jsReplaceAll_cons_neg (pat rep : List Char) (c : Char) (cs : List Char)
    (h : ¬(pat ≠ [] ∧ pat.isPrefixOf (c :: cs))) :
    jsReplaceAll pat rep (c :: cs) = c :: jsReplaceAll pat rep cs := by
  rw [jsReplaceAll.eq_def]
  simp only []
  rw [if_neg h]

/-- When the output of the substitution starts with a character other than
`n`, the input starts with that same character and the rest of the output
is the substitution of the rest of the input. -/
theorem hrefReplace_cons (s : List Char) (d : Char) (out : List Char)
    (hd : d ≠ 'n')
    (h : jsReplaceAll hrefPat hrefRep s = d :: out) :
    ∃ s1, s = d :: s1 ∧ jsReplaceAll hrefPat hrefRep s1 = out := by
  cases s with
  | nil =>
    rw [jsReplaceAll_nil] at h
    exact absurd h (by simp)
  | cons c cs =>
    by_cases hp : hrefPat.isPrefixOf (c :: cs)
    · rw [jsReplaceAll_cons_pos _ _ _ _ ⟨by simp [hrefPat], hp⟩] at h
      rw [show hrefRep = 'n' :: ['o', 'h', 'r', 'e', 'f', '=', '"'] from rfl,
        List.cons_append] at h
      injection h with h1 h2
      exact absurd h1.symm hd
    · rw [jsReplaceAll_cons_neg _ _ _ _ (fun hcon => hp hcon.2)] at h
      injection h with h1 h2
      exact ⟨cs, by rw [h1], h2⟩

/-- Every occurrence of `href="` in the output of the substitution is
immediately preceded by the two characters `no`. -/
theorem hrefReplace_no_bare (n : Nat) : ∀ s : List Char, s.length ≤ n →
    ∀ l r, jsReplaceAll hrefPat hrefRep s = l ++ hrefPat ++ r →
    ∃ l0, l = l0 ++ ['n', 'o'] := by
  induction n with
  | zero =>
    intro s hs l r h
    have hs0 : s = [] := List.length_eq_zero.mp (Nat.le_zero.mp hs)
    subst hs0
    rw [jsReplaceAll_nil] at h
    rcases List.append_eq_nil.mp h.symm with ⟨h1, -⟩
    rcases List.append_eq_nil.mp h1 with ⟨-, h2⟩
    exact absurd h2 (by simp [hrefPat])
  | succ n ih =>
    intro s hs l r h
    rw [List.append_assoc] at h
    cases s with
    | nil =>
      rw [jsReplaceAll_nil] at h
      rcases List.append_eq_nil.mp h.symm with ⟨-, h1⟩
      rcases List.append_eq_nil.mp h1 with ⟨h2, -⟩
      exact absurd h2 (by simp [hrefPat])
    | cons c cs =>
      have hlen : ((c :: cs).drop hrefPat.length).length ≤ n := by
        rw [List.length_drop]
        simp only [List.length_cons] at hs ⊢
        have h6 : hrefPat.length = 6 := by decide
        rw [h6]
        omega
      by_cases hp : hrefPat.isPrefixOf (c :: cs)
      · rw [jsReplaceAll_cons_pos _ _ _ _ ⟨by simp [hrefPat], hp⟩] at h
        rcases l with _ | ⟨a1, l1⟩
        · rw [List.nil_append] at h
          rw [show hrefRep = ['n', 'o', 'h', 'r', 'e', 'f', '=', '"'] from rfl,
            show hrefPat = ['h', 'r', 'e', 'f', '=', '"'] from rfl] at h
          simp only [List.cons_append, List.nil_append] at h
          injection h with h1 h2
          exact absurd h1 (by decide)
        · rcases l1 with _ | ⟨a2, l2⟩
          · rw [show hrefRep = ['n', 'o', 'h', 'r', 'e', 'f', '=', '"'] from rfl,
              show hrefPat = ['h', 'r', 'e', 'f', '=', '"'] from rfl] at h
            simp only [List.cons_append, List.nil_append] at h
            injection h with ha h
            injection h with h2 h
            exact absurd h2 (by decide)
          · -- l = a1 :: a2 :: l2; the replacement contributes `no` then hrefPat
            rw [show hrefRep = 'n' :: 'o' :: hrefPat from rfl] at h
            simp only [List.cons_append] at h
            injection h with h1 h
            injection h with h2 h
            -- h : hrefPat ++ out1 = l2 ++ (hrefPat ++ r)
            rcases l2 with _ | ⟨b1, l3⟩
            · -- occurrence exactly at the substituted hrefPat: l = [a1, a2] = no
              exact ⟨[], by rw [← h1, ← h2]; rfl⟩
            · rw [show hrefPat = ['h', 'r', 'e', 'f', '=', '"'] from rfl] at h
              simp only [List.cons_append, List.nil_append] at h
              injection h with hb1 h
              rcases l3 with _ | ⟨b2, l4⟩
              · injection h with hbad h
                exact absurd hbad (by decide)
              · injection h with hb2 h
                rcases l4 with _ | ⟨b3, l5⟩
                · injection h with hbad h
                  exact absurd hbad (by decide)
                · injection h with hb3 h
                  rcases l5 with _ | ⟨b4, l6⟩
                  · injection h with hbad h
                    exact absurd hbad (by decide)
                  · injection h with hb4 h
                    rcases l6 with _ | ⟨b5, l7⟩
                    · injection h with hbad h
                      exact absurd hbad (by decide)
                    · injection h with hb5 h
                      rcases l7 with _ | ⟨b6, l8⟩
                      · injection h with hbad h
                        exact absurd hbad (by decide)
                      · injection h with hb6 h
                        -- h : out1 = l8 ++ (hrefPat ++ r)
                        obtain ⟨l0, hl0⟩ := ih _ hlen l8 r
                          (by rw [List.append_assoc]; exact h)
                        refine ⟨'n' :: 'o' :: b1 :: b2 :: b3 :: b4 :: b5 :: b6 :: l0, ?_⟩
                        rw [← h1, ← h2, hl0]
                        simp
      · rw [jsReplaceAll_cons_neg _ _ _ _ (fun hcon => hp hcon.2)] at h
        rcases l with _ | ⟨x, l1⟩
        · exfalso
          rw [List.nil_append,
            show hrefPat = 'h' :: ['r', 'e', 'f', '=', '"'] from rfl,
            List.cons_append] at h
          injection h with hc h
          obtain ⟨cs1, hcs1, h⟩ := hrefReplace_cons cs 'r'
            ('e' :: 'f' :: '=' :: '"' :: r) (by decide) (by simpa using h)
          obtain ⟨cs2, hcs2, h⟩ := hrefReplace_cons cs1 'e'
            ('f' :: '=' :: '"' :: r) (by decide) h
          obtain ⟨cs3, hcs3, h⟩ := hrefReplace_cons cs2 'f'
            ('=' :: '"' :: r) (by decide) h
          obtain ⟨cs4, hcs4, h⟩ := hrefReplace_cons cs3 '='
            ('"' :: r) (by decide) h
          obtain ⟨cs5, hcs5, h⟩ := hrefReplace_cons cs4 '"' r (by decide) h
          apply hp
          rw [hc, hcs1, hcs2, hcs3, hcs4, hcs5]
          show hrefPat.isPrefixOf ('h' :: 'r' :: 'e' :: 'f' :: '=' :: '"' :: cs5) = true
          rw [show hrefPat = ['h', 'r', 'e', 'f', '=', '"'] from rfl]
          simp [List.isPrefixOf]
        · rw [List.cons_append] at h
          injection h with hx h
          have hlen2 : cs.length ≤ n := by
            simp only [List.length_cons] at hs
            omega
          obtain ⟨l0, hl0⟩ := ih cs hlen2 l1 r (by rw [h, List.append_assoc])
          exact ⟨x :: l0, by rw [hl0]; rfl⟩

theorem hrefReplace_preceded (s l r : List Char)
    (h : jsReplaceAll hrefPat hrefRep s = l ++ hrefPat ++ r) :
    ∃ l0, l = l0 ++ ['n', 'o'] :=
  hrefReplace_no_bare s.length s le_rfl l r h

/-- Concrete run of the substitution on the body `href="x`. -/
theorem hrefReplace_example :
    jsReplaceAll hrefPat hrefRep (("href=\"x" : String).data) =
      'n' :: 'o' :: 'h' :: 'r' :: 'e' :: 'f' :: '=' :: '"' :: ['x'] := by
  rw [show ("href=\"x" : String).data =
      'h' :: ['r', 'e', 'f', '=', '"', 'x'] from by decide]
  rw [jsReplaceAll_cons_pos _ _ _ _ ⟨by decide, by decide⟩]
  rw [show (('h' :: ['r', 'e', 'f', '=', '"', 'x']).drop hrefPat.length) = ['x']
    from by decide]
  rw [jsReplaceAll_cons_neg _ _ _ _ (by decide), jsReplaceAll_nil]
  rfl

/-- C1 (amended): for the word "Cat" and no language argument,
`createWikiUrl` builds the url "http://en.wikipedia.org/wiki/Cat"; and for
every fetched body, every occurrence of the substring `href="` in the
returned page is immediately preceded by the characters `no` — i.e. it
occurs only inside a substituted `nohref="` (the page may therefore still
contain `href="` as a literal substring). -/
theorem createWikiUrl_cat (fetch : String → String) :
    (createWikiUrl fetch ["Cat"] none).url =
      some "http://en.wikipedia.org/wiki/Cat" ∧
    ∀ l r, (createWikiUrl fetch ["Cat"] none).page.data = l ++ hrefPat ++ r →
      ∃ l0, l = l0 ++ ['n', 'o'] := by
  constructor
  · show some ("http://" ++ "en" ++ ".wikipedia.org/wiki/" ++
      encodeURI (jsTrim (["Cat"].headD ""))) =
      some "http://en.wikipedia.org/wiki/Cat"
    decide
  · intro l r h
    exact hrefReplace_preceded _ l r h

/-- C1 counterexample: for the fetched body `href="x` the returned page is
`nohref="x`, which does contain the literal substring `href="` — refuting
the claim that the page contains no occurrence of `href="`. -/
theorem createWikiUrl_href_counterexample :
    (createWikiUrl (fun _ => "href=\"x") ["Cat"] none).page.data =
      ['n', 'o'] ++ hrefPat ++ ['x'] ∧
    hrefPat <:+: (createWikiUrl (fun _ => "href=\"x") ["Cat"] none).page.data := by
  have h1 : (createWikiUrl (fun _ => "href=\"x") ["Cat"] none).page.data =
      ['n', 'o'] ++ hrefPat ++ ['x'] := by
    show jsReplaceAll hrefPat hrefRep (("href=\"x" : String).data) = _
    rw [hrefReplace_example]
    rfl
  exact ⟨h1, ['n', 'o'], ['x'], h1.symm⟩

/-- C1 witness: at the concrete fetched body `href="x` the url conjunct
holds and the single `href="` occurrence in the page (at offset 2 of
`nohref="x`) is indeed preceded by `no`. -/
theorem createWikiUrl_cat_witness :
    (createWikiUrl (fun _ => "href=\"x") ["Cat"] none).url =
      some "http://en.wikipedia.org/wiki/Cat" ∧
    ∃ l0, (['n', 'o'] : List Char) = l0 ++ ['n', 'o'] := by
  refine ⟨(createWikiUrl_cat (fun _ => "href=\"x")).1, ?_⟩
  apply (createWikiUrl_cat (fun _ => "href=\"x")).2 ['n', 'o'] ['x']
  show jsReplaceAll hrefPat hrefRep (("href=\"x" : String).data) =
    ['n', 'o'] ++ hrefPat ++ ['x']
  rw [hrefReplace_example]
  rfl

/-! ## Idempotence of the insertLink selection branch -/

theorem modifyNth_comp (cs : ElemList) : ∀ (i : Nat) (f g : Element → Element),
    (cs.modifyNth i f).modifyNth i g = cs.modifyNth i (fun c => g (f c)) :=
  match cs with
  | .nil => fun _ _ _ => rfl
  | .cons c cs1 => fun i f g => by
    cases i with
    | zero => rfl
    | succ n =>
      show ElemList.cons c ((cs1.modifyNth n f).modifyNth n g) = _
      rw [modifyNth_comp cs1 n f g]
      rfl

theorem modifyNth_comm (cs : ElemList) : ∀ (i j : Nat) (f g : Element → Element),
    i ≠ j → (cs.modifyNth i f).modifyNth j g = (cs.modifyNth j g).modifyNth i f :=
  match cs with
  | .nil => fun _ _ _ _ _ => rfl
  | .cons c cs1 => fun i j f g hij => by
    cases i with
    | zero =>
      cases j with
      | zero => exact absurd rfl hij
      | succ m => rfl
    | succ n =>
      cases j with
      | zero => rfl
      | succ m =>
        show ElemList.cons c ((cs1.modifyNth n f).modifyNth m g) = _
        rw [modifyNth_comm cs1 n m f g (fun hc => hij (by rw [hc]))]
        rfl

theorem modifyNth_eq_self (cs : ElemList) : ∀ (i : Nat) (f : Element → Element)
    (c : Element), cs.modifyNth i f = cs → cs.nth i = some c → f c = c :=
  match cs with
  | .nil => by
    intro i f c _ h2
    simp [ElemList.nth] at h2
  | .cons a cs1 => fun i f c h1 h2 => by
    cases i with
    | zero =>
      injection h1 with ha _
      injection h2 with hc
      rw [← hc]
      exact ha
    | succ n =>
      injection h1 with _ htail
      exact modifyNth_eq_self cs1 n f c htail h2

theorem modifyNth_eq_self_of (cs : ElemList) : ∀ (i : Nat) (f : Element → Element)
    (c : Element), cs.nth i = some c → f c = c → cs.modifyNth i f = cs :=
  match cs with
  | .nil => fun _ _ _ h _ => by simp [ElemList.nth] at h
  | .cons a cs1 => fun i f c h1 h2 => by
    cases i with
    | zero =>
      injection h1 with hc
      show ElemList.cons (f a) cs1 = _
      rw [hc, h2]
    | succ n =>
      show ElemList.cons a (cs1.modifyNth n f) = _
      rw [modifyNth_eq_self_of cs1 n f c h1 h2]

theorem modifyNth_oob (cs : ElemList) : ∀ (i : Nat) (f : Element → Element),
    cs.nth i = none → cs.modifyNth i f = cs :=
  match cs with
  | .nil => fun _ _ _ => rfl
  | .cons a cs1 => fun i f h => by
    cases i with
    | zero => simp [ElemList.nth] at h
    | succ n =>
      show ElemList.cons a (cs1.modifyNth n f) = _
      rw [modifyNth_oob cs1 n f h]

theorem nth_modifyNth (cs : ElemList) : ∀ (i j : Nat) (g : Element → Element),
    (cs.modifyNth j g).nth i = if i = j then (cs.nth i).map g else cs.nth i :=
  match cs with
  | .nil => fun i j g => by
    cases j <;> cases i <;> simp [ElemList.modifyNth, ElemList.nth]
  | .cons a cs1 => fun i j g => by
    cases j with
    | zero =>
      cases i with
      | zero => simp [ElemList.modifyNth, ElemList.nth]
      | succ n => simp [ElemList.modifyNth, ElemList.nth]
    | succ m =>
      cases i with
      | zero => simp [ElemList.modifyNth, ElemList.nth]
      | succ n =>
        show (cs1.modifyNth m g).nth n = _
        rw [nth_modifyNth cs1 n m g]
        by_cases hnm : n = m
        · simp [hnm, ElemList.nth]
        · have : ¬(n + 1 = m + 1) := fun hc => hnm (by omega)
          simp [hnm, this, ElemList.nth]

theorem modifyAt_nil (e : Element) (f : Element → Element) :
    modifyAt e [] f = f e := by
  cases e <;> rfl

theorem getAt_nil (e : Element) : getAt e [] = some e := by
  cases e <;> rfl

theorem modifyAt_comp (p : List Nat) : ∀ (e : Element) (f g : Element → Element),
    modifyAt (modifyAt e p f) p g = modifyAt e p (fun x => g (f x)) := by
  induction p with
  | nil =>
    intro e f g
    rw [modifyAt_nil, modifyAt_nil, modifyAt_nil]
  | cons i p1 ih =>
    intro e f g
    cases e with
    | text chars => rfl
    | image l => rfl
    | node cs =>
      show Element.node ((cs.modifyNth i _).modifyNth i _) = _
      rw [modifyNth_comp]
      congr 1
      apply congrArg (cs.modifyNth i)
      funext c
      exact ih c f g

theorem map_allv_setRangeChars (v : String) (s t : Nat) :
    ∀ (i : Nat) (cs : List (Char × Option String)),
    (setRangeChars v s t i cs).map (fun c => (c.1, some v)) =
      cs.map (fun c => (c.1, some v)) := by
  intro i cs
  induction cs generalizing i with
  | nil => rfl
  | cons c cs ih =>
    simp only [setRangeChars, List.map_cons]
    rw [ih (i + 1)]
    by_cases hc : s ≤ i ∧ i ≤ t
    · simp [hc]
    · simp [hc]

theorem setRangeChars_allv (v : String) (s t : Nat) :
    ∀ (i : Nat) (cs : List (Char × Option String)),
    setRangeChars v s t i (cs.map (fun c => (c.1, some v))) =
      cs.map (fun c => (c.1, some v)) := by
  intro i cs
  induction cs generalizing i with
  | nil => rfl
  | cons c cs ih =>
    simp only [List.map_cons, setRangeChars]
    rw [ih (i + 1)]
    by_cases hc : s ≤ i ∧ i ≤ t
    · simp [hc]
    · simp [hc]

theorem setRangeChars_idem (v : String) (s t : Nat) :
    ∀ (i : Nat) (cs : List (Char × Option String)),
    setRangeChars v s t i (setRangeChars v s t i cs) = setRangeChars v s t i cs := by
  intro i cs
  induction cs generalizing i with
  | nil => rfl
  | cons c cs ih =>
    simp only [setRangeChars]
    rw [ih (i + 1)]
    by_cases hc : s ≤ i ∧ i ≤ t
    · simp [hc]
    · simp [hc]

theorem setRangeChars_fixed_absorb (v : String) (s t s2 t2 : Nat) :
    ∀ (i : Nat) (cs : List (Char × Option String)),
    setRangeChars v s t i cs = cs →
    setRangeChars v s t i (setRangeChars v s2 t2 i cs) =
      setRangeChars v s2 t2 i cs := by
  intro i cs
  induction cs generalizing i with
  | nil => intro _; rfl
  | cons c cs ih =>
    intro h
    simp only [setRangeChars] at h ⊢
    injection h with hhead htail
    rw [ih (i + 1) htail]
    by_cases hc : s ≤ i ∧ i ≤ t
    · rw [if_pos hc] at hhead
      by_cases hc2 : s2 ≤ i ∧ i ≤ t2
      · simp [hc, hc2]
      · simp [hc, hc2, hhead]
    · simp [hc]

theorem map_allv_fixed_absorb (v : String) (s2 t2 : Nat) :
    ∀ (i : Nat) (cs : List (Char × Option String)),
    cs.map (fun c => (c.1, some v)) = cs →
    (setRangeChars v s2 t2 i cs).map (fun c => (c.1, some v)) =
      setRangeChars v s2 t2 i cs := by
  intro i cs
  induction cs generalizing i with
  | nil => intro _; rfl
  | cons c cs ih =>
    intro h
    simp only [List.map_cons] at h
    injection h with hhead htail
    simp only [setRangeChars, List.map_cons]
    rw [ih (i + 1) htail]
    by_cases hc : s2 ≤ i ∧ i ≤ t2
    · simp [hc]
    · simp [hc, hhead]

theorem map_allv_idem (v : String) (cs : List (Char × Option String)) :
    (cs.map (fun c => (c.1, some v))).map (fun c => (c.1, some v)) =
      cs.map (fun c => (c.1, some v)) := by
  rw [List.map_map]
  rfl

mutual
theorem setAll_idem (e : Element) (v : String) :
    setLinkOnAllChildren (setLinkOnAllChildren e v) v = setLinkOnAllChildren e v :=
  match e with
  | .text chars => by
    show Element.text ((chars.map _).map _) = Element.text (chars.map _)
    rw [map_allv_idem]
  | .image _ => rfl
  | .node .nil => rfl
  | .node (.cons c cs) => by
    show Element.node (setChildren (setChildren (.cons c cs) v) v) =
      Element.node (setChildren (.cons c cs) v)
    rw [setChildren_idem (.cons c cs) v]
theorem setChildren_idem (cs : ElemList) (v : String) :
    setChildren (setChildren cs v) v = setChildren cs v :=
  match cs with
  | .nil => rfl
  | .cons c cs1 => by
    show ElemList.cons (setLinkOnAllChildren (setLinkOnAllChildren c v) v)
      (setChildren (setChildren cs1 v) v) = _
    rw [setAll_idem c v, setChildren_idem cs1 v]
    rfl
end

theorem map_erase_setRangeChars (v : String) (s t : Nat) :
    ∀ (i : Nat) (cs : List (Char × Option String)),
    (setRangeChars v s t i cs).map (fun c => ((c.1 : Char), (none : Option String))) =
      cs.map (fun c => (c.1, none)) := by
  intro i cs
  induction cs generalizing i with
  | nil => rfl
  | cons c cs ih =>
    simp only [setRangeChars, List.map_cons]
    rw [ih (i + 1)]
    by_cases hc : s ≤ i ∧ i ≤ t
    · simp [hc]
    · simp [hc]

theorem erase_setRange (s t : Nat) (v : String) (e : Element) :
    eraseLinks (setLinkUrlRange s t v e) = eraseLinks e := by
  cases e with
  | text chars =>
    show Element.text _ = Element.text _
    rw [map_erase_setRangeChars]
  | image l => rfl
  | node cs => rfl

mutual
theorem erase_setAll (e : Element) (v : String) :
    eraseLinks (setLinkOnAllChildren e v) = eraseLinks e :=
  match e with
  | .text chars => by
    show Element.text ((chars.map _).map _) = Element.text (chars.map _)
    rw [List.map_map]
    rfl
  | .image _ => rfl
  | .node .nil => rfl
  | .node (.cons c cs) => by
    show Element.node (eraseLinksList (setChildren (.cons c cs) v)) =
      Element.node (eraseLinksList (.cons c cs))
    rw [erase_setChildren (.cons c cs) v]
theorem erase_setChildren (cs : ElemList) (v : String) :
    eraseLinksList (setChildren cs v) = eraseLinksList cs :=
  match cs with
  | .nil => rfl
  | .cons c cs1 => by
    show ElemList.cons (eraseLinks (setLinkOnAllChildren c v))
      (eraseLinksList (setChildren cs1 v)) = _
    rw [erase_setAll c v, erase_setChildren cs1 v]
    rfl
end

theorem eraseList_modifyNth (F : Element → Element)
    (hF : ∀ c, eraseLinks (F c) = eraseLinks c) (cs : ElemList) : ∀ (i : Nat),
    eraseLinksList (cs.modifyNth i F) = eraseLinksList cs :=
  match cs with
  | .nil => fun _ => rfl
  | .cons c cs1 => fun i => by
    cases i with
    | zero =>
      show ElemList.cons (eraseLinks (F c)) (eraseLinksList cs1) = _
      rw [hF c]
      rfl
    | succ n =>
      show ElemList.cons (eraseLinks c) (eraseLinksList (cs1.modifyNth n F)) = _
      rw [eraseList_modifyNth F hF cs1 n]
      rfl

theorem erase_modifyAt (g : Element → Element)
    (hg : ∀ x, eraseLinks (g x) = eraseLinks x) :
    ∀ (q : List Nat) (e : Element),
    eraseLinks (modifyAt e q g) = eraseLinks e := by
  intro q
  induction q with
  | nil =>
    intro e
    rw [modifyAt_nil]
    exact hg e
  | cons i q1 ih =>
    intro e
    cases e with
    | text chars => rfl
    | image l => rfl
    | node cs =>
      show Element.node (eraseLinksList (cs.modifyNth i _)) = _
      rw [eraseList_modifyNth _ (fun c => ih c) cs i]
      rfl

theorem nth_eraseList (cs : ElemList) : ∀ (i : Nat),
    (eraseLinksList cs).nth i = (cs.nth i).map eraseLinks :=
  match cs with
  | .nil => fun _ => rfl
  | .cons c cs1 => fun i => by
    cases i with
    | zero => rfl
    | succ n =>
      show (eraseLinksList cs1).nth n = _
      rw [nth_eraseList cs1 n]
      rfl

theorem getAt_erase (p : List Nat) : ∀ (e : Element),
    getAt (eraseLinks e) p = (getAt e p).map eraseLinks := by
  induction p with
  | nil =>
    intro e
    rw [getAt_nil, getAt_nil]
    rfl
  | cons i p1 ih =>
    intro e
    cases e with
    | text chars => rfl
    | image l => rfl
    | node cs =>
      have hR : getAt (Element.node cs) (i :: p1) =
          (match cs.nth i with | some c => getAt c p1 | none => none) := rfl
      rw [hR]
      show (match (eraseLinksList cs).nth i with
        | some c => getAt c p1
        | none => none) = _
      rw [nth_eraseList cs i]
      cases hc : cs.nth i with
      | none => rfl
      | some c =>
        show getAt (eraseLinks c) p1 = _
        rw [ih c]

theorem isTextType_erase (e : Element) :
    (eraseLinks e).isTextType = e.isTextType := by
  cases e <;> rfl

theorem isTextTypeAt_of_erase_eq (r1 r2 : Element) (p : List Nat)
    (h : eraseLinks r1 = eraseLinks r2) :
    (match getAt r1 p with | some el => el.isTextType | none => false) =
    (match getAt r2 p with | some el => el.isTextType | none => false) := by
  have h1 := getAt_erase p r1
  have h2 := getAt_erase p r2
  rw [h] at h1
  have h3 : (getAt r1 p).map eraseLinks = (getAt r2 p).map eraseLinks := by
    rw [← h1, ← h2]
  cases ha : getAt r1 p with
  | none =>
    cases hb : getAt r2 p with
    | none => rfl
    | some b =>
      rw [ha, hb] at h3
      simp at h3
  | some a =>
    cases hb : getAt r2 p with
    | none =>
      rw [ha, hb] at h3
      simp at h3
    | some b =>
      rw [ha, hb] at h3
      have h4 : eraseLinks a = eraseLinks b := by
        simpa using h3
      show a.isTextType = b.isTextType
      rw [← isTextType_erase a, ← isTextType_erase b, h4]

theorem setter_idem (v : String) (f : Element → Element) (hf : Setter v f)
    (e : Element) : f (f e) = f e := by
  cases hf with
  | range s t =>
    cases e with
    | text chars =>
      show Element.text (setRangeChars v s t 0 (setRangeChars v s t 0 chars)) = _
      rw [setRangeChars_idem]
      rfl
    | image l => rfl
    | node cs => rfl
  | whole => exact setAll_idem e v

theorem setter_absorb (v : String) (f g : Element → Element)
    (hf : Setter v f) (hg : Setter v g) (e : Element) (he : f e = e) :
    f (g e) = g e := by
  cases hf with
  | range s t =>
    cases hg with
    | range s2 t2 =>
      cases e with
      | text chars =>
        have h1 : setRangeChars v s t 0 chars = chars := by injection he
        show Element.text (setRangeChars v s t 0 (setRangeChars v s2 t2 0 chars)) = _
        rw [setRangeChars_fixed_absorb v s t s2 t2 0 chars h1]
        rfl
      | image l => rfl
      | node cs => rfl
    | whole =>
      cases e with
      | text chars =>
        show Element.text (setRangeChars v s t 0 (chars.map _)) = _
        rw [setRangeChars_allv]
        rfl
      | image l => rfl
      | node cs =>
        cases cs with
        | nil => rfl
        | cons c cs1 => rfl
  | whole =>
    cases hg with
    | range s2 t2 =>
      cases e with
      | text chars =>
        have h1 : chars.map (fun c => (c.1, some v)) = chars := by injection he
        show Element.text ((setRangeChars v s2 t2 0 chars).map _) = _
        rw [map_allv_fixed_absorb v s2 t2 0 chars h1]
        rfl
      | image l => exact he
      | node cs => exact he
    | whole => exact setAll_idem e v

theorem setAll_node_of_setChildren (v : String) (L : ElemList)
    (h : setChildren L v = L) :
    setLinkOnAllChildren (.node L) v = .node L := by
  cases L with
  | nil => rfl
  | cons c cs =>
    show Element.node (setChildren (.cons c cs) v) = _
    rw [h]

theorem setChildren_modifyNth_fix (v : String) (F : Element → Element)
    (hF : ∀ x, setLinkOnAllChildren x v = x → setLinkOnAllChildren (F x) v = F x) :
    ∀ (cs : ElemList) (j : Nat), setChildren cs v = cs →
      setChildren (cs.modifyNth j F) v = cs.modifyNth j F
  | .nil, _ => fun _ => rfl
  | .cons c cs1, j => fun h => by
    have hc : setLinkOnAllChildren c v = c ∧ setChildren cs1 v = cs1 := by
      have h2 : ElemList.cons (setLinkOnAllChildren c v) (setChildren cs1 v) =
          ElemList.cons c cs1 := h
      exact ⟨by injection h2, by injection h2⟩
    cases j with
    | zero =>
      show ElemList.cons (setLinkOnAllChildren (F c) v) (setChildren cs1 v) = _
      rw [hF c hc.1, hc.2]
      rfl
    | succ n =>
      show ElemList.cons (setLinkOnAllChildren c v)
        (setChildren (cs1.modifyNth n F) v) = _
      rw [hc.1, setChildren_modifyNth_fix v F hF cs1 n hc.2]
      rfl

theorem fixed_setAll_modifyAt (v : String) (g : Element → Element)
    (hg : Setter v g) : ∀ (r : List Nat) (e : Element),
    setLinkOnAllChildren e v = e →
    setLinkOnAllChildren (modifyAt e r g) v = modifyAt e r g := by
  intro r
  induction r with
  | nil =>
    intro e he
    rw [modifyAt_nil]
    exact setter_absorb v _ g Setter.whole hg e he
  | cons j r1 ih =>
    intro e he
    cases e with
    | text chars => exact he
    | image l => exact he
    | node cs =>
      cases cs with
      | nil => exact he
      | cons c cs1 =>
        have hsc : setChildren (.cons c cs1) v = .cons c cs1 := by
          injection he
        show setLinkOnAllChildren (.node ((ElemList.cons c cs1).modifyNth j
          (fun x => modifyAt x r1 g))) v = _
        exact setAll_node_of_setChildren v _
          (setChildren_modifyNth_fix v _ (fun x => ih x) (.cons c cs1) j hsc)

theorem modifyNth_setChildren_fix (v : String) (F : Element → Element)
    (hF : ∀ x, F (setLinkOnAllChildren x v) = setLinkOnAllChildren x v) :
    ∀ (cs : ElemList) (j : Nat),
      (setChildren cs v).modifyNth j F = setChildren cs v
  | .nil, _ => rfl
  | .cons c cs1, j => by
    cases j with
    | zero =>
      show ElemList.cons (F (setLinkOnAllChildren c v)) (setChildren cs1 v) = _
      rw [hF c]
      rfl
    | succ n =>
      show ElemList.cons (setLinkOnAllChildren c v)
        ((setChildren cs1 v).modifyNth n F) = _
      rw [modifyNth_setChildren_fix v F hF cs1 n]
      rfl

theorem modifyAt_setAll_fixed (v : String) (f : Element → Element)
    (hf : Setter v f) : ∀ (r : List Nat) (e : Element),
    modifyAt (setLinkOnAllChildren e v) r f = setLinkOnAllChildren e v := by
  intro r
  induction r with
  | nil =>
    intro e
    rw [modifyAt_nil]
    cases hf with
    | whole => exact setAll_idem e v
    | range s t =>
      cases e with
      | text chars =>
        show Element.text (setRangeChars v s t 0 (chars.map _)) = _
        rw [setRangeChars_allv]
        rfl
      | image l => rfl
      | node cs =>
        cases cs with
        | nil => rfl
        | cons c cs1 => rfl
  | cons j r1 ih =>
    intro e
    cases e with
    | text chars => rfl
    | image l => rfl
    | node cs =>
      cases cs with
      | nil => rfl
      | cons c cs1 =>
        show Element.node ((setChildren (.cons c cs1) v).modifyNth j
          (fun x => modifyAt x r1 f)) = _
        rw [modifyNth_setChildren_fix v _ (fun x => ih x) (.cons c cs1) j]
        rfl

theorem modifyAt_fixed_preserved (v : String) (f g : Element → Element)
    (hf : Setter v f) (hg : Setter v g) :
    ∀ (p : List Nat) (q : List Nat) (e : Element), modifyAt e p f = e →
      modifyAt (modifyAt e q g) p f = modifyAt e q g := by
  intro p
  induction p with
  | nil =>
    intro q e he
    rw [modifyAt_nil] at he ⊢
    cases q with
    | nil =>
      rw [modifyAt_nil]
      exact setter_absorb v f g hf hg e he
    | cons j q1 =>
      cases hf with
      | whole => exact fixed_setAll_modifyAt v g hg (j :: q1) e he
      | range s t =>
        cases e with
        | text chars => exact he
        | image l => exact he
        | node cs => rfl
  | cons i p1 ih =>
    intro q e he
    cases q with
    | nil =>
      rw [modifyAt_nil]
      cases hg with
      | whole => exact modifyAt_setAll_fixed v f hf (i :: p1) e
      | range s t =>
        cases e with
        | text chars => rfl
        | image l => exact he
        | node cs => exact he
    | cons j q1 =>
      cases e with
      | text chars => rfl
      | image l => rfl
      | node cs =>
        have hyp : cs.modifyNth i (fun c => modifyAt c p1 f) = cs := by
          injection he
        show Element.node ((cs.modifyNth j (fun c => modifyAt c q1 g)).modifyNth i
          (fun c => modifyAt c p1 f)) = Element.node (cs.modifyNth j
          (fun c => modifyAt c q1 g))
        by_cases hij : i = j
        · subst hij
          cases hc : cs.nth i with
          | none =>
            rw [modifyNth_oob cs i _ hc, modifyNth_oob cs i _ hc]
          | some c =>
            have hfix : modifyAt c p1 f = c := modifyNth_eq_self cs i _ c hyp hc
            have hnth2 : (cs.modifyNth i (fun c => modifyAt c q1 g)).nth i =
                some (modifyAt c q1 g) := by
              rw [nth_modifyNth]
              simp [hc]
            rw [modifyNth_eq_self_of _ i _ (modifyAt c q1 g) hnth2 (ih q1 c hfix)]
        · rw [modifyNth_comm cs j i _ _ (fun hc => hij hc.symm), hyp]

theorem applyRange_choose (link : String) (root : Element) (re : RangeElement) :
    ∃ f, Setter link f ∧
      ∀ root2, eraseLinks root2 = eraseLinks root →
        applyRange link root2 re = modifyAt root2 re.path f := by
  rcases hpr : re.partialRange with _ | ⟨s, t⟩
  · refine ⟨_, Setter.whole, ?_⟩
    intro root2 _
    simp only [applyRange, hpr]
  · by_cases hc : (match getAt root re.path with
      | some el => el.isTextType
      | none => false) = true
    · refine ⟨_, Setter.range s t, ?_⟩
      intro root2 h2
      have hc2 : (match getAt root2 re.path with
          | some el => el.isTextType
          | none => false) = true := by
        rw [isTextTypeAt_of_erase_eq root2 root re.path h2]
        exact hc
      simp only [applyRange, hpr]
      rw [if_pos hc2]
    · refine ⟨_, Setter.whole, ?_⟩
      intro root2 h2
      have hc2 : ¬(match getAt root2 re.path with
          | some el => el.isTextType
          | none => false) = true := by
        rw [isTextTypeAt_of_erase_eq root2 root re.path h2]
        exact hc
      simp only [applyRange, hpr]
      rw [if_neg hc2]

theorem erase_setter (v : String) (f : Element → Element) (hf : Setter v f)
    (x : Element) : eraseLinks (f x) = eraseLinks x := by
  cases hf with
  | range s t => exact erase_setRange s t v x
  | whole => exact erase_setAll x v

theorem erase_applyRange (link : String) (root : Element) (re : RangeElement) :
    eraseLinks (applyRange link root re) = eraseLinks root := by
  obtain ⟨f, hf, heq⟩ := applyRange_choose link root re
  rw [heq root rfl]
  exact erase_modifyAt f (erase_setter link f hf) re.path root

theorem applyRange_idem (link : String) (root : Element) (re : RangeElement) :
    applyRange link (applyRange link root re) re = applyRange link root re := by
  obtain ⟨f, hf, heq⟩ := applyRange_choose link root re
  have e1 := heq root rfl
  have e2 := heq (applyRange link root re) (erase_applyRange link root re)
  rw [e2, e1, modifyAt_comp]
  have hff : (fun x => f (f x)) = f := funext (fun x => setter_idem link f hf x)
  rw [hff]

theorem applyRange_fixed_preserved (link : String) (root : Element)
    (re re2 : RangeElement) (h : applyRange link root re = root) :
    applyRange link (applyRange link root re2) re = applyRange link root re2 := by
  obtain ⟨f, hf, heqf⟩ := applyRange_choose link root re
  obtain ⟨g, hg, heqg⟩ := applyRange_choose link root re2
  have hroot : modifyAt root re.path f = root := by
    rw [← heqf root rfl]
    exact h
  have herase : eraseLinks (modifyAt root re2.path g) = eraseLinks root := by
    rw [← heqg root rfl]
    exact erase_applyRange link root re2
  rw [heqg root rfl, heqf (modifyAt root re2.path g) herase]
  exact modifyAt_fixed_preserved link f g hf hg re.path re2.path root hroot

theorem foldl_applyRange_fixed (link : String) (es : List RangeElement) :
    ∀ root, (∀ re ∈ es, applyRange link root re = root) →
    es.foldl (applyRange link) root = root := by
  induction es with
  | nil =>
    intro root _
    rfl
  | cons a t ih =>
    intro root h
    rw [List.foldl_cons, h a (List.mem_cons_self _ _)]
    exact ih root (fun re hre => h re (List.mem_cons_of_mem a hre))

theorem foldl_applyRange_preserves (link : String) (re : RangeElement)
    (es : List RangeElement) : ∀ root, applyRange link root re = root →
    applyRange link (es.foldl (applyRange link) root) re =
      es.foldl (applyRange link) root := by
  induction es with
  | nil =>
    intro root h
    exact h
  | cons a t ih =>
    intro root h
    rw [List.foldl_cons]
    exact ih (applyRange link root a) (applyRange_fixed_preserved link root re a h)

theorem foldl_applyRange_all_fixed (link : String) (es : List RangeElement) :
    ∀ root re, re ∈ es →
    applyRange link (es.foldl (applyRange link) root) re =
      es.foldl (applyRange link) root := by
  induction es with
  | nil =>
    intro root re h
    simp at h
  | cons a t ih =>
    intro root re hre
    rw [List.foldl_cons]
    rcases List.mem_cons.mp hre with rfl | hmem
    · exact foldl_applyRange_preserves link re t (applyRange link root re)
        (applyRange_idem link root re)
    · exact ih (applyRange link root a) re hmem

theorem foldl_applyRange_idem (link : String) (es : List RangeElement)
    (root : Element) :
    es.foldl (applyRange link) (es.foldl (applyRange link) root) =
      es.foldl (applyRange link) root :=
  foldl_applyRange_fixed link es _ (fun re hre =>
    foldl_applyRange_all_fixed link es root re hre)

/-- C2 (amended): when a selection exists, re-applying `insertLink` with the
same text and link leaves the document in the same state as applying it
once — the selection branch only assigns link values, which is idempotent.
At a bare cursor the claim fails: each application inserts the text again
(see the counterexample). -/
theorem insertLink_idem_of_selection (doc : Doc) (nt l : String)
    (es : List RangeElement) (hsel : doc.selection = some es) :
    insertLink ((insertLink doc nt l).1) nt l = insertLink doc nt l := by
  simp only [insertLink, hsel]
  rw [foldl_applyRange_idem]

/-- C2 witness: a concrete one-element selection over a text element. -/
theorem insertLink_idem_witness :
    insertLink ((insertLink ⟨Element.node (.cons (.text [('a', none)]) .nil),
        some [⟨[0], none⟩], none⟩ "t" "u").1) "t" "u" =
      insertLink ⟨Element.node (.cons (.text [('a', none)]) .nil),
        some [⟨[0], none⟩], none⟩ "t" "u" :=
  insertLink_idem_of_selection _ "t" "u" [⟨[0], none⟩] rfl

/-- C2 counterexample: with no selection and a cursor between "x" and "y",
`insertLink` succeeds but inserts " link " again on the second application,
so applying it twice does not leave the document in the state reached after
one application. -/
theorem insertLink_cursor_counterexample :
    (insertLink ((insertLink ⟨Element.node (.cons (.text
          [('x', none), ('y', none)]) .nil), none, some ⟨[0], 1⟩⟩
        "link" "url").1) "link" "url").1 ≠
      (insertLink ⟨Element.node (.cons (.text [('x', none), ('y', none)]) .nil),
        none, some ⟨[0], 1⟩⟩ "link" "url").1 := by
  intro h
  have h2 := congrArg (fun d : Doc => Element.getText d.root) h
  exact absurd h2 (by decide)

end Linkify
